import Mathlib

set_option maxHeartbeats 1000000
set_option maxRecDepth 4000

/-!
# Retrieval & Reranking Pipeline — verification development

Shallow embedding of the retrieval subsystem (`rag_agent/retrieval/`):
the query transformer (`query_transformer.py`), the base vector-DB
retriever (`base_retriever.py`), the document reranker (`reranker.py`)
and the orchestrating pipeline (`pipeline.py`).

Modelling conventions:
* Python strings are Lean `String`s; string scanning helpers work on the
  underlying `List Char`.  `str.lower` is modelled on the ASCII range
  (the only range the code distinguishes; CJK characters are unaffected
  by Python's `lower` as well).
* Python floats are modelled as real numbers (`ℝ`); `math.log` is
  `Real.log`.  Configuration-level numeric values that are only passed
  through to the backend are modelled as `ℚ`.
* The external vector index (Chroma) is an abstract `Backend` function
  returning `Except`; raising an exception is returning `Except.error`.
* Python dicts used as keyword-argument bags are modelled as structures
  of `Option` fields (absent key = `none`).
-/

/-- ASCII whitespace, as recognised by Python's `str.strip` / `str.split`
and the regex class `\s` (restricted to the ASCII range). -/
def pyIsSpace (c : Char) : Bool :=
  c = ' ' || c = '\t' || c = '\n' || c = '\r' || c = '\x0b' || c = '\x0c'

/-- Python `str.strip()`: remove leading and trailing whitespace. -/
def pyStrip (s : String) : String :=
  ⟨((s.data.dropWhile pyIsSpace).reverse.dropWhile pyIsSpace).reverse⟩

/-- Python `str.lower()` on the character range the code manipulates
(ASCII letters; all other characters, including CJK, are fixed points). -/
def lowerChar (c : Char) : Char :=
  if 'A' ≤ c && c ≤ 'Z' then Char.ofNat (c.toNat + 32) else c

/-- Python `str.lower()`. -/
def lowerStr (s : String) : String := ⟨s.data.map lowerChar⟩

/-- Contiguous-substring occurrence test on character lists
(Python's `needle in haystack`). -/
def occursIn (pat : List Char) : List Char → Bool
  | [] => pat.isEmpty
  | c :: cs => pat.isPrefixOf (c :: cs) || occursIn pat cs

/-- Python `needle in haystack` for strings. -/
def substrB (needle hay : String) : Bool := occursIn needle.data hay.data

/-- Accumulator pass of `pySplitWs`: `cur` is the reversed word being
built. -/
def pySplitGo (cur : List Char) : List Char → List (List Char)
  | [] => if cur = [] then [] else [cur.reverse]
  | c :: cs =>
    if pyIsSpace c then
      if cur = [] then pySplitGo [] cs else cur.reverse :: pySplitGo [] cs
    else pySplitGo (c :: cur) cs

/-- Python `str.split()` (no separator argument): split on whitespace
runs, dropping empty fields. -/
def pySplitWs (l : List Char) : List (List Char) := pySplitGo [] l

/-- Python `str.count(sub)`: number of non-overlapping occurrences,
scanning left to right.  (`"".count` conventions follow Python: an empty
pattern is counted `len + 1` times; the retrieval code only ever counts
nonempty words.) -/
def countOccs (pat : List Char) (l : List Char) : ℕ :=
  if h : pat = [] then l.length + 1
  else if hp : pat.isPrefixOf l then 1 + countOccs pat (l.drop pat.length)
  else
    match l with
    | [] => 0
    | _ :: t => countOccs pat t
termination_by l.length
decreasing_by
  · cases pat with
    | nil => exact absurd rfl h
    | cons p ps =>
      cases l with
      | nil => simp [List.isPrefixOf] at hp
      | cons c cs => simp; omega
  · simp

/-- Python `str.replace(old, new)`: replace all non-overlapping
occurrences left to right.  (The code only ever replaces nonempty keys;
for an empty pattern we return the input unchanged.) -/
def replaceAll (pat rep : List Char) (l : List Char) : List Char :=
  if h : pat = [] then l
  else if hp : pat.isPrefixOf l then rep ++ replaceAll pat rep (l.drop pat.length)
  else
    match l with
    | [] => []
    | c :: t => c :: replaceAll pat rep t
termination_by l.length
decreasing_by
  · cases pat with
    | nil => exact absurd rfl h
    | cons p ps =>
      cases l with
      | nil => simp [List.isPrefixOf] at hp
      | cons c cs => simp; omega
  · simp

/-- Python `str.replace` for strings. -/
def pyReplace (s pat rep : String) : String := ⟨replaceAll pat.data rep.data s.data⟩

/-! ## Query transformer (`query_transformer.py`) -/

/-- The static technical-term table of `_expand_by_keywords`
(insertion order preserved, as in a Python dict). -/
def tech_mappings : List (String × List String) :=
  [("AI", ["人工智能", "Artificial Intelligence", "机器学习", "ML"]),
   ("人工智能", ["AI", "Artificial Intelligence", "机器学习", "ML"]),
   ("LangChain", ["langchain", "Lang Chain", "语言链"]),
   ("LangGraph", ["langgraph", "Lang Graph", "语言图"]),
   ("RAG", ["检索增强生成", "Retrieval Augmented Generation", "检索增强"]),
   ("向量数据库", ["vector database", "vectorstore", "向量存储"]),
   ("Agent", ["智能体", "代理", "agent"]),
   ("智能体", ["Agent", "代理", "agent"])]

/-- The static synonym table of `_expand_by_synonyms`. -/
def synonym_mappings : List (String × List String) :=
  [("优势", ["好处", "优点", "特点", "特色"]),
   ("特点", ["特色", "特征", "优势", "优点"]),
   ("使用", ["应用", "运用", "利用", "采用"]),
   ("方法", ["方式", "策略", "技术", "手段"]),
   ("实现", ["完成", "达成", "构建", "开发"]),
   ("配置", ["设置", "配制", "设定", "调整"]),
   ("问题", ["困难", "挑战", "难题", "故障"]),
   ("解决", ["处理", "解答", "修复", "应对"])]

/-- The static context table of `_expand_by_context`. -/
def context_rules : List (String × List String) :=
  [("LangGraph", ["工作流", "状态管理", "节点", "边"]),
   ("Agent", ["工具", "推理", "决策", "执行"]),
   ("RAG", ["检索", "生成", "知识库", "向量"]),
   ("配置", ["参数", "设置", "环境变量", "初始化"]),
   ("错误", ["调试", "日志", "异常", "故障排除"])]

/-- Embeds: `QueryTransformer._expand_by_keywords`: for every table key found as
a case-insensitive substring of the query, append `query + " " + e` for
every expansion `e` not already (case-insensitively) present. -/
def expand_by_keywords (query : String) : List String :=
  (tech_mappings.map (fun te =>
    if substrB (lowerStr te.1) (lowerStr query) then
      (te.2.filter (fun e => !substrB (lowerStr e) (lowerStr query))).map
        (fun e => query ++ " " ++ e)
    else [])).flatten

/-- Embeds: `QueryTransformer._expand_by_synonyms`: for every table key present
as a (case-sensitive) substring, append the query with all occurrences
replaced by each synonym, keeping only results that differ from the
query. -/
def expand_by_synonyms (query : String) : List String :=
  (synonym_mappings.map (fun ws =>
    if substrB ws.1 query then
      (ws.2.map (fun syn => pyReplace query ws.1 syn)).filter (fun r => r != query)
    else [])).flatten

/-- Embeds: `QueryTransformer._expand_by_context`: for every table key found
case-insensitively, append `query + " " + ctx` for every related term
`ctx` not already (case-sensitively) present. -/
def expand_by_context (query : String) : List String :=
  (context_rules.map (fun kc =>
    if substrB (lowerStr kc.1) (lowerStr query) then
      (kc.2.filter (fun ctx => !substrB ctx query)).map
        (fun ctx => query ++ " " ++ ctx)
    else [])).flatten

/-- The final dedup loop of `expand_query`: keep a query if it was not
seen before and its stripped form is nonempty (`if q not in seen and
q.strip()`). -/
def uniqueKeep (seen : List String) : List String → List String
  | [] => []
  | q :: qs =>
    if q ∉ seen ∧ pyStrip q ≠ "" then q :: uniqueKeep (q :: seen) qs
    else uniqueKeep seen qs

/-- Embeds: `QueryTransformer.expand_query`: original query first, then the
three generators' outputs, deduplicated preserving first-seen order.
The `except` branch of the source (degrade to `[query]`) is unreachable
in this pure model, where no generator can raise. -/
def expand_query (query : String) : List String :=
  uniqueKeep []
    (query :: (expand_by_keywords query ++ expand_by_synonyms query ++ expand_by_context query))

/-- CJK block `一`–`鿿` appearing in the normalization
whitelist. -/
def isCJK (c : Char) : Bool := 0x4e00 ≤ c.toNat && c.toNat ≤ 0x9fff

/-- Regex `\w`, modelled on the ASCII range (letters, digits,
underscore).  The CJK characters the code cares about are covered by the
separate explicit `一-鿿` range of the whitelist. -/
def isWordChar (c : Char) : Bool := c.isAlpha || c.isDigit || c = '_'

/-- The punctuation listed in the normalization whitelist:
`.,!?;:()[]` plus braces, double quote, single quote and hyphen. -/
def basicPunct : List Char :=
  ['.', ',', '!', '?', ';', ':', '(', ')', '[', ']',
   Char.ofNat 0x7b, Char.ofNat 0x7d, Char.ofNat 0x22, Char.ofNat 0x27, '-']

/-- A character survives the whitelist regex
`[^\w\s一-鿿.,!?;:()\[\]{}"'-]` → `''` substitution. -/
def keepChar (c : Char) : Bool :=
  isWordChar c || pyIsSpace c || isCJK c || basicPunct.contains c

/-- State pass of `collapseWsRe`; the flag records whether the scanner
is inside a whitespace run whose single `' '` has already been
emitted. -/
def collapseGo : Bool → List Char → List Char
  | _, [] => []
  | inRun, c :: cs =>
    if pyIsSpace c then
      if inRun then collapseGo true cs else ' ' :: collapseGo true cs
    else c :: collapseGo false cs

/-- Embeds: `re.sub(r'\s+', ' ', ·)`: replace every maximal whitespace run by a
single space. -/
def collapseWsRe (l : List Char) : List Char := collapseGo false l

/-- Embeds: `QueryTransformer.normalize_query`: strip, collapse whitespace runs,
then delete characters outside the whitelist. -/
def normalize_query (query : String) : String :=
  ⟨(collapseWsRe (pyStrip query).data).filter keepChar⟩

example : normalize_query "a  b" = "a b" := by decide
example : expand_query "a  b" = ["a  b"] := by decide
example : pyStrip "  hi " = "hi" := by decide

/-! ## Data model -/

/-- A retrieved unit of evidence (`langchain_core.documents.Document` as
used by the pipeline): the text body plus an opaque metadata tag, which
the pipeline passes through unmodified. -/
structure Document where
  page_content : String
  metadata : ℕ
deriving DecidableEq, Inhabited

/-! ## Deduplication (`RetrievalPipeline._deduplicate_documents`) -/

/-- Loop of `_deduplicate_documents`.  The Python code keys the seen-set
by `hash(doc.page_content.strip())`; the hash is modelled as the trimmed
content itself (i.e. collision-free), which is the documented contract
of the deduplication step. -/
def dedupGo (seen : List String) : List Document → List Document
  | [] => []
  | d :: ds =>
    if pyStrip d.page_content ∈ seen then dedupGo seen ds
    else d :: dedupGo (pyStrip d.page_content :: seen) ds

/-- Embeds: `RetrievalPipeline._deduplicate_documents`: drop every document
whose trimmed content was already seen. -/
def deduplicate_documents (docs : List Document) : List Document := dedupGo [] docs

/-! ## Reranker scoring primitives (`reranker.py`) -/

/-- Embeds: `set(s.split())` for a string: the finite set of its whitespace
separated words. -/
def wordFinset (s : String) : Finset String :=
  ((pySplitWs s.data).map (fun w => (⟨w⟩ : String))).toFinset

/-- Exact-substring component of `_calculate_relevance_score`:
1 if the lowered query occurs in the lowered content. -/
noncomputable def exact_match_score (query : String) (d : Document) : ℝ :=
  if substrB (lowerStr query) (lowerStr d.page_content) then 1 else 0

/-- Keyword-overlap component: `|query_words ∩ doc_words| / |query_words|`,
0 for a word-free query. -/
noncomputable def keyword_score (query : String) (d : Document) : ℝ :=
  let qw := wordFinset (lowerStr query)
  let dw := wordFinset (lowerStr d.page_content)
  if qw = ∅ then 0 else ((qw ∩ dw).card : ℝ) / (qw.card : ℝ)

/-- Term-frequency component: sum of `log (1 + count)` over the query's
words that occur in the content, averaged over the query words and
clamped to 1 (the Python code divides and clamps only when the query has
words; for a word-free query the raw sum, which is 0, is returned). -/
noncomputable def word_freq_score (query : String) (d : Document) : ℝ :=
  let qw := wordFinset (lowerStr query)
  let content := (lowerStr d.page_content).data
  let raw := Finset.sum qw (fun w =>
    if occursIn w.data content then Real.log (1 + (countOccs w.data content : ℝ)) else 0)
  if qw = ∅ then raw else min (raw / (qw.card : ℝ)) 1

/-- Length-penalty component: `1 / (1 + log (1 + word_count / 100))`. -/
noncomputable def length_penalty (d : Document) : ℝ :=
  1 / (1 + Real.log (1 + ((pySplitWs (lowerStr d.page_content).data).length : ℝ) / 100))

/-- Embeds: `DocumentReranker._calculate_relevance_score`: the weighted sum of
the four components, clamped to 1 (`min(final_score, 1.0)`). -/
noncomputable def calculate_relevance_score (query : String) (d : Document) : ℝ :=
  min (0.4 * exact_match_score query d + 0.3 * keyword_score query d
    + 0.2 * word_freq_score query d + 0.1 * length_penalty d) 1

/-- Embeds: `DocumentReranker._calculate_document_similarity`: Jaccard
similarity of the lowercase word sets. -/
noncomputable def document_similarity (d1 d2 : Document) : ℝ :=
  let s1 := wordFinset (lowerStr d1.page_content)
  let s2 := wordFinset (lowerStr d2.page_content)
  if s1 = ∅ ∨ s2 = ∅ then 0
  else ((s1 ∩ s2).card : ℝ) / ((s1 ∪ s2).card : ℝ)

/-! ## Stable descending sort and MMR selection

`list.sort(key=..., reverse=True)` is a stable sort by descending key;
it is embedded as insertion sort placing each element before the first
element whose key is not larger (which preserves the original order of
equal keys).  The MMR loop of `rerank_by_diversity` works on the indices
`0 … n-1` of the candidate list, exactly like the Python code. -/

/-- Stable descending insertion: place `a` before the first element
whose key is `≤ key a`. -/
noncomputable def insertD {α : Type} (key : α → ℝ) (a : α) : List α → List α
  | [] => [a]
  | b :: bs => if key b ≤ key a then a :: b :: bs else b :: insertD key a bs

/-- Stable sort by descending key (insertion sort). -/
noncomputable def stableSortDesc {α : Type} (key : α → ℝ) : List α → List α
  | [] => []
  | a :: l => insertD key a (stableSortDesc key l)

/-- Left fold of Python's running-best loop
(`if score > best: best = x`), starting from `a`: returns the first
element of `a :: t` attaining the maximal key. -/
noncomputable def maxLeft {α : Type} (key : α → ℝ) : α → List α → α
  | a, [] => a
  | a, b :: t => maxLeft key (if key a < key b then b else a) t

/-- Python's `max(l, key=...)` and the `best_idx` scan of the MMR loop
(both return the first maximiser; the scan starts from `-inf`, so the
first element always becomes the initial best). -/
noncomputable def pickBest {α : Type} (key : α → ℝ) : List α → Option α
  | [] => none
  | a :: t => some (maxLeft key a t)

/-- Embeds: `max_similarity` accumulation of the MMR loop: maximum similarity of
candidate `i` to the already selected indices, starting from 0. -/
noncomputable def maxSimTo (sim : ℕ → ℕ → ℝ) (i : ℕ) (selected : List ℕ) : ℝ :=
  selected.foldl (fun m j => max m (sim i j)) 0

/-- The guard `top_k is not None and len(selected) >= top_k` that stops
the MMR loop. -/
def tkReached : Option ℕ → ℕ → Bool
  | none, _ => false
  | some k, n => k ≤ n

/-- The `while remaining and (top_k is None or len(selected) < top_k)`
loop of `rerank_by_diversity`, on index lists.  `fuel` is an upper bound
on the number of iterations (each iteration removes one element of
`remaining`, so `remaining.length` suffices). -/
noncomputable def mmrLoop (rel : ℕ → ℝ) (sim : ℕ → ℕ → ℝ) (lam : ℝ) (tk : Option ℕ) :
    ℕ → List ℕ → List ℕ → List ℕ
  | 0, selected, _ => selected
  | fuel + 1, selected, remaining =>
    if remaining = [] then selected
    else if tkReached tk selected.length then selected
    else
      match pickBest (fun i => lam * rel i - (1 - lam) * maxSimTo sim i selected) remaining with
      | none => selected
      | some b => mmrLoop rel sim lam tk fuel (selected ++ [b]) (remaining.erase b)

/-- Greedy first-maximiser extraction (proof device): repeatedly pick
the first maximal element and remove it.  This is the extensional
behaviour of a stable descending sort, which is proved below and used to
relate the MMR loop at `λ = 1` to `rerank_by_relevance`. -/
noncomputable def greedyAll (key : ℕ → ℝ) : ℕ → List ℕ → List ℕ
  | 0, _ => []
  | fuel + 1, l =>
    match pickBest key l with
    | none => []
    | some m => m :: greedyAll key fuel (l.erase m)

/-- Relevance score of the `i`-th candidate (Python's
`relevance_scores[i]`). -/
noncomputable def relKey (query : String) (docs : List Document) : ℕ → ℝ :=
  fun i => calculate_relevance_score query (docs.getD i default)

/-- Pairwise document similarity by candidate index. -/
noncomputable def simKey (docs : List Document) : ℕ → ℕ → ℝ :=
  fun i j => document_similarity (docs.getD i default) (docs.getD j default)

/-- Embeds: `l[:top_k] if top_k is not None else l`. -/
def takeOpt {α : Type} : Option ℕ → List α → List α
  | none, l => l
  | some k, l => l.take k

/-- Embeds: `l[:top_k] if top_k else l` — note the truthiness test: `top_k = 0`
leaves the list untruncated. -/
def takeTruthy {α : Type} : Option ℕ → List α → List α
  | none, l => l
  | some k, l => if k = 0 then l else l.take k

/-! ## Reranking strategies (`reranker.py`) -/

/-- Embeds: `DocumentReranker.rerank_by_relevance`: score every document, stable
sort by descending score, truncate to `top_k` if given, return the
documents.  The `except` fallback of the source is unreachable in the
pure model. -/
noncomputable def rerank_by_relevance (query : String) (docs : List Document)
    (tk : Option ℕ) : List Document :=
  if docs = [] then []
  else
    (takeOpt tk (stableSortDesc (fun p => p.2)
      (docs.map (fun d => (d, calculate_relevance_score query d))))).map Prod.fst

/-- Index-level core of `rerank_by_diversity`: the list of selected
candidate indices.  Lists of length ≤ 1 are returned unchanged
(`range n`); otherwise the first maximally relevant index is selected,
then the MMR loop runs on the remaining indices. -/
noncomputable def diversityIdx (query : String) (docs : List Document)
    (tk : Option ℕ) (lam : ℝ) : List ℕ :=
  if docs.length ≤ 1 then List.range docs.length
  else
    match pickBest (relKey query docs) (List.range docs.length) with
    | none => []
    | some first =>
      mmrLoop (relKey query docs) (simKey docs) lam tk
        ((List.range docs.length).erase first).length
        [first] ((List.range docs.length).erase first)

/-- Embeds: `DocumentReranker.rerank_by_diversity` (`lam` is the
`diversity_threshold` parameter, default 0.7).  Candidate identity is
tracked by position in the input list, mirroring the index-based Python
loop. -/
noncomputable def rerank_by_diversity (query : String) (docs : List Document)
    (tk : Option ℕ) (lam : ℝ) : List Document :=
  if docs = [] then []
  else (diversityIdx query docs tk lam).map (fun i => docs.getD i default)

/-- Embeds: `DocumentReranker.rerank_hybrid`: rank positions from the full
relevance and diversity orders, combine with the (renormalised) weights,
stable sort by descending combined score, truncate with a truthiness
test.  Python keys `doc_scores` by `id(doc)`; object identity is
modelled by position in the input list. -/
noncomputable def rerank_hybrid (query : String) (docs : List Document)
    (tk : Option ℕ) (relevance_weight diversity_weight : ℝ) : List Document :=
  if docs = [] then []
  else
    let n := docs.length
    let total := relevance_weight + diversity_weight
    let rw := if 0 < total then relevance_weight / total else relevance_weight
    let dw := if 0 < total then diversity_weight / total else diversity_weight
    let relIdx := stableSortDesc (relKey query docs) (List.range n)
    let divIdx := diversityIdx query docs none 0.7
    let combined : ℕ → ℝ := fun i =>
      (if i ∈ relIdx then rw * (((relIdx.length : ℝ) - (relIdx.indexOf i : ℝ)) / (relIdx.length : ℝ)) else 0)
      + (if i ∈ divIdx then dw * (((divIdx.length : ℝ) - (divIdx.indexOf i : ℝ)) / (divIdx.length : ℝ)) else 0)
    takeTruthy tk ((stableSortDesc combined (List.range n)).map (fun i => docs.getD i default))

/-- Embeds: `DocumentReranker.rerank`: strategy dispatch; unknown strategy names
fall back to relevance.  `lam`, `relevance_weight`, `diversity_weight`
carry the Python defaults (0.7, 0.7, 0.3) at the pipeline call site. -/
noncomputable def rerank (query : String) (docs : List Document) (strategy : String)
    (tk : Option ℕ) (lam relevance_weight diversity_weight : ℝ) : List Document :=
  if strategy = "relevance" then rerank_by_relevance query docs tk
  else if strategy = "diversity" then rerank_by_diversity query docs tk lam
  else if strategy = "hybrid" then rerank_hybrid query docs tk relevance_weight diversity_weight
  else rerank_by_relevance query docs tk

/-! ## Base retriever (`base_retriever.py`) -/

/-- Keyword arguments handed to the vector store
(`search_kwargs`). -/
structure SearchKwargs where
  k : Option ℕ := none
  fetch_k : Option ℕ := none
  lambda_mult : Option ℚ := none
  score_threshold : Option ℚ := none
deriving DecidableEq

/-- The external vector index: given query, search type and keyword
arguments it returns documents or raises. -/
abbrev Backend : Type := String → String → SearchKwargs → Except String (List Document)

/-- The `{"k": k, **search_kwargs}` merge of
`VectorDBRetriever.retrieve` (an explicit `"k"` in `search_kwargs` wins
over the positional `k`). -/
def mergeSearchKwargs (k : ℕ) : Option SearchKwargs → SearchKwargs
  | none => { k := some k }
  | some kw => { kw with k := some (kw.k.getD k) }

/-- Embeds: `VectorDBRetriever.retrieve`: fail if the store is uninitialised;
otherwise call the backend; on failure of a non-`"similarity"` search type
retry once with plain similarity and the same `k`; a failure of the
plain-similarity call propagates as a retrieval error. -/
def retrieve (vs : Option Backend) (query : String) (k : ℕ) (search_type : String)
    (search_kwargs : Option SearchKwargs) : Except String (List Document) :=
  match vs with
  | none => Except.error "vector store not initialized"
  | some backend =>
    match backend query search_type (mergeSearchKwargs k search_kwargs) with
    | Except.ok docs => Except.ok docs
    | Except.error e =>
      if search_type = "similarity" then Except.error ("base retrieval failed: " ++ e)
      else retrieve vs query k "similarity" (some { k := some k })
termination_by (if search_type = "similarity" then 0 else 1)
decreasing_by
  rename_i hst
  simp_all

/-! ## Pipeline configuration and orchestration (`pipeline.py`) -/

/-- The recognised configuration options; every field is optional
(absent dict key = `none`). -/
structure Config where
  k : Option ℕ := none
  normalize_query : Option Bool := none
  use_query_expansion : Option Bool := none
  use_mmr : Option Bool := none
  mmr_fetch_k : Option ℕ := none
  mmr_lambda : Option ℚ := none
  score_threshold : Option ℚ := none
  use_reranking : Option Bool := none
  rerank_strategy : Option String := none
  rerank_top_k : Option ℕ := none
  min_content_length : Option ℕ := none
  max_docs_before_rerank : Option ℕ := none
  final_k : Option ℕ := none
  enable_cache : Option Bool := none
deriving DecidableEq

/-- Embeds: `{**self.config, **kwargs}`: runtime overrides win field by
field. -/
def mergeConfig (base kw : Config) : Config where
  k := kw.k <|> base.k
  normalize_query := kw.normalize_query <|> base.normalize_query
  use_query_expansion := kw.use_query_expansion <|> base.use_query_expansion
  use_mmr := kw.use_mmr <|> base.use_mmr
  mmr_fetch_k := kw.mmr_fetch_k <|> base.mmr_fetch_k
  mmr_lambda := kw.mmr_lambda <|> base.mmr_lambda
  score_threshold := kw.score_threshold <|> base.score_threshold
  use_reranking := kw.use_reranking <|> base.use_reranking
  rerank_strategy := kw.rerank_strategy <|> base.rerank_strategy
  rerank_top_k := kw.rerank_top_k <|> base.rerank_top_k
  min_content_length := kw.min_content_length <|> base.min_content_length
  max_docs_before_rerank := kw.max_docs_before_rerank <|> base.max_docs_before_rerank
  final_k := kw.final_k <|> base.final_k
  enable_cache := kw.enable_cache <|> base.enable_cache

/-- Embeds: `RetrievalPipeline._preprocess_query`. -/
def preprocess_query (query : String) (cfg : Config) : String :=
  if cfg.normalize_query.getD true then normalize_query query else query

/-- Embeds: `RetrievalPipeline._transform_query`. -/
def transform_query (query : String) (cfg : Config) : List String :=
  if cfg.use_query_expansion.getD false then expand_query query else [query]

/-- Search-type resolution of `RetrievalPipeline._retrieve_documents`:
MMR beats threshold beats plain similarity. -/
def retrieveSearchType (cfg : Config) : String :=
  if cfg.use_mmr.getD false then "mmr"
  else if cfg.score_threshold.isSome then "similarity_score_threshold"
  else "similarity"

/-- The `search_kwargs` dict that `_retrieve_documents` builds once for
all query variants. -/
def retrieveSearchKwargs (cfg : Config) : SearchKwargs :=
  let k := cfg.k.getD 5
  if cfg.use_mmr.getD false then
    { k := some k, fetch_k := some (cfg.mmr_fetch_k.getD (k * 2)),
      lambda_mult := some (cfg.mmr_lambda.getD (1/2)) }
  else if cfg.score_threshold.isSome then
    { k := some k, score_threshold := cfg.score_threshold }
  else { k := some k }

/-- One iteration of the `_retrieve_documents` loop: try the configured
search type; on failure retry the variant with plain similarity; a
variant whose fallback also fails is skipped (all exceptions are
caught, nothing escapes this stage). -/
def retrieveStep (vs : Option Backend) (cfg : Config) (acc : List Document)
    (query : String) : List Document :=
  match retrieve vs query (cfg.k.getD 5) (retrieveSearchType cfg)
      (some (retrieveSearchKwargs cfg)) with
  | Except.ok ds => acc ++ ds
  | Except.error _ =>
    match retrieve vs query (cfg.k.getD 5) "similarity" none with
    | Except.ok ds => acc ++ ds
    | Except.error _ => acc

/-- Embeds: `RetrievalPipeline._retrieve_documents`: fan the query variants out
to the retriever, concatenating all successfully retrieved documents. -/
def retrieve_documents (vs : Option Backend) (queries : List String) (cfg : Config) :
    List Document :=
  queries.foldl (retrieveStep vs cfg) []

/-- Embeds: `RetrievalPipeline._filter_documents` (the `query` argument is
unused by the source as well): minimum trimmed-content length, then a
prefix cap at `max_docs_before_rerank`. -/
def filter_documents (docs : List Document) (query : String) (cfg : Config) :
    List Document :=
  let mcl := cfg.min_content_length.getD 10
  let f1 := if 0 < mcl then docs.filter (fun d => mcl ≤ (pyStrip d.page_content).length) else docs
  let mx := cfg.max_docs_before_rerank.getD 20
  if mx < f1.length then f1.take mx else f1

/-- Embeds: `RetrievalPipeline._postprocess_documents`: dedup then filter;
empty input short-circuits. -/
def postprocess_documents (docs : List Document) (query : String) (cfg : Config) :
    List Document :=
  if docs = [] then [] else filter_documents (deduplicate_documents docs) query cfg

/-- Embeds: `RetrievalPipeline._rerank_documents`: skipped when disabled or when
there are no documents; the reranker's own failure fallback is
unreachable in the pure model. -/
noncomputable def rerank_documents (query : String) (docs : List Document) (cfg : Config) :
    List Document :=
  if cfg.use_reranking.getD false = false ∨ docs = [] then docs
  else rerank query docs (cfg.rerank_strategy.getD "relevance")
    (some (cfg.rerank_top_k.getD docs.length)) 0.7 0.7 0.3

/-- Python's `x or y` for an optional integer in truthy position:
`None` and `0` both fall through to `y`. -/
def pyOrNat (x : Option ℕ) (y : ℕ) : ℕ :=
  match x with
  | some v => if v = 0 then y else v
  | none => y

/-- Embeds: `RetrievalPipeline._finalize_results`:
`final_k = config.get('final_k') or config.get('k', 5)`, then truncate
if the list is longer. -/
def finalize_results (docs : List Document) (cfg : Config) : List Document :=
  let fk := pyOrNat cfg.final_k (cfg.k.getD 5)
  if fk < docs.length then docs.take fk else docs

/-- Pipeline state: resolved configuration, the (possibly
uninitialised) vector store, the query cache and the cache switch
captured at construction time (`self._enable_cache`). -/
structure RetrievalPipeline where
  config : Config
  vectorstore : Option Backend
  cache : List (String × List Document)
  enable_cache : Bool

/-- Embeds: `RetrievalPipeline._fallback_retrieve`: one plain-similarity
attempt; on failure return the empty list. -/
def fallback_retrieve (vs : Option Backend) (query : String) (k : ℕ) : List Document :=
  match retrieve vs query k "similarity" none with
  | Except.ok ds => ds
  | Except.error _ => []

/-- Embeds: `RetrievalPipeline.invoke`: merge overrides, consult the cache,
then normalize → expand → retrieve → dedup/filter → rerank → finalize,
storing the result in the cache when caching is enabled.  Every stage of
the body catches its own exceptions, so the top-level
`except`/`_fallback_retrieve` branch of the source is unreachable in
this model; `invoke` is total.  Returns the result list together with
the updated cache. -/
noncomputable def invoke (p : RetrievalPipeline) (query : String) (kwargs : Config) :
    List Document × List (String × List Document) :=
  let cfg := mergeConfig p.config kwargs
  match (if p.enable_cache then p.cache.lookup query else none) with
  | some cached => (cached, p.cache)
  | none =>
    let nq := preprocess_query query cfg
    let queries := transform_query nq cfg
    let all := retrieve_documents p.vectorstore queries cfg
    let post := postprocess_documents all nq cfg
    let reranked := rerank_documents nq post cfg
    let result := finalize_results reranked cfg
    if p.enable_cache then (result, (query, result) :: p.cache) else (result, p.cache)

/-! ## Specification-side definitions and concrete fixtures -/

/-- Spec-side reading of normalization, step 1: every whitespace
character becomes a space. -/
def spaceNormChar (c : Char) : Char := if pyIsSpace c then ' ' else c

/-- Spec-side reading of normalization, step 2: a run of spaces is
collapsed to a single space (formulated by dropping a space whose
successor is also a space, i.e. keeping the last space of each run —
deliberately a different formulation than the scanner `collapseGo`,
which emits the single space at the start of a run). -/
def squashSpaces : List Char → List Char
  | [] => []
  | [c] => [c]
  | a :: b :: t =>
    if a = ' ' ∧ b = ' ' then squashSpaces (b :: t) else a :: squashSpaces (b :: t)

/-- A backend that succeeds (with no hits) only for plain similarity. -/
def simOnlyBackend : Backend := fun _ st _ =>
  if st = "similarity" then Except.ok [] else Except.error "boom"

/-- A backend whose every call raises. -/
def downBackend : Backend := fun _ _ _ => Except.error "down"

/-- A pipeline whose vector store failed to initialise, caching
disabled. -/
def pipelineNoStore : RetrievalPipeline :=
  { config := {}, vectorstore := none, cache := [], enable_cache := false }

/-- A pipeline over the always-failing backend, caching enabled, cold
cache. -/
def pipelineDown : RetrievalPipeline :=
  { config := {}, vectorstore := some downBackend, cache := [], enable_cache := true }

/-! # Theorems -/

theorem dropWhile_length_le (p : α → Bool) (l : List α) :
    (l.dropWhile p).length ≤ l.length := by
  induction l with
  | nil => simp
  | cons a t ih =>
    rw [List.dropWhile_cons]
    split
    · exact Nat.le_succ_of_le ih
    · exact Nat.le_refl _

/-! ## Deduplication lemmas -/

theorem dedupGo_sublist (seen : List String) (docs : List Document) :
    List.Sublist (dedupGo seen docs) docs := by
  induction docs generalizing seen with
  | nil => simp [dedupGo]
  | cons d ds ih =>
    rw [dedupGo]
    split
    · exact List.Sublist.cons d (ih seen)
    · exact List.Sublist.cons₂ d (ih _)

theorem dedupGo_key_unseen (seen : List String) (docs : List Document) :
    ∀ x ∈ dedupGo seen docs, pyStrip x.page_content ∉ seen := by
  induction docs generalizing seen with
  | nil => simp [dedupGo]
  | cons d ds ih =>
    rw [dedupGo]
    split
    · exact ih seen
    · rename_i hkey
      intro x hx
      rcases List.mem_cons.mp hx with hx | hx
      · subst hx
        exact hkey
      · intro hs
        exact (ih _ x hx) (List.mem_cons_of_mem _ hs)

theorem dedupGo_pairwise (seen : List String) (docs : List Document) :
    (dedupGo seen docs).Pairwise
      (fun a b => pyStrip a.page_content ≠ pyStrip b.page_content) := by
  induction docs generalizing seen with
  | nil => simp [dedupGo]
  | cons d ds ih =>
    rw [dedupGo]
    split
    · exact ih seen
    · refine List.Pairwise.cons ?_ (ih _)
      intro b hb heq
      exact (dedupGo_key_unseen _ _ b hb) (heq ▸ List.mem_cons_self _ _)

theorem dedupGo_find?_of_seen (seen : List String) (docs : List Document) (c : String)
    (hc : c ∈ seen) :
    (dedupGo seen docs).find? (fun d => pyStrip d.page_content == c) = none := by
  induction docs generalizing seen with
  | nil => simp [dedupGo]
  | cons d ds ih =>
    rw [dedupGo]
    split
    · exact ih seen hc
    · rename_i hkey
      rw [List.find?_cons_of_neg, ih (pyStrip d.page_content :: seen) (List.mem_cons_of_mem _ hc)]
      simp only [beq_iff_eq]
      intro h
      exact hkey (h ▸ hc)

theorem dedupGo_find?_of_unseen (seen : List String) (docs : List Document) (c : String)
    (hc : c ∉ seen) :
    (dedupGo seen docs).find? (fun d => pyStrip d.page_content == c)
      = docs.find? (fun d => pyStrip d.page_content == c) := by
  induction docs generalizing seen with
  | nil => simp [dedupGo]
  | cons d ds ih =>
    rw [dedupGo]
    split
    · rename_i hkey
      rw [ih seen hc, List.find?_cons_of_neg]
      simp only [beq_iff_eq]
      intro h
      exact hc (h ▸ hkey)
    · rename_i hkey
      by_cases hdc : pyStrip d.page_content = c
      · rw [List.find?_cons_of_pos, List.find?_cons_of_pos] <;> simp [hdc]
      · rw [List.find?_cons_of_neg, List.find?_cons_of_neg]
        · refine ih _ ?_
          simp only [List.mem_cons, not_or]
          exact ⟨fun h => hdc h.symm, hc⟩
        · simp [hdc]
        · simp [hdc]

/-- C6 — Deduplication returns a list no longer than its input, keeps at
most one document per trimmed content, keeps the first occurrence of
each trimmed content, and preserves the relative order of those first
occurrences (the output is a sublist of the input whose first match for
any trimmed content agrees with the input's first match). -/
theorem dedup_shrinks_and_keeps_first_occurrences (docs : List Document) :
    (deduplicate_documents docs).length ≤ docs.length
    ∧ List.Sublist (deduplicate_documents docs) docs
    ∧ (deduplicate_documents docs).Pairwise
        (fun a b => pyStrip a.page_content ≠ pyStrip b.page_content)
    ∧ ∀ c : String,
        (deduplicate_documents docs).find? (fun d => pyStrip d.page_content == c)
          = docs.find? (fun d => pyStrip d.page_content == c) := by
  refine ⟨(dedupGo_sublist [] docs).length_le, dedupGo_sublist [] docs,
    dedupGo_pairwise [] docs, fun c => dedupGo_find?_of_unseen [] docs c (by simp)⟩

/-! ## Finalization (C10) -/

/-- C10 — `_finalize_results` computes the bound with Python's
`config.get('final_k') or config.get('k', 5)`, a truthiness test: an
explicit `final_k = 0` is treated exactly like an absent `final_k`, so
the result is truncated to `k` documents rather than to zero. -/
theorem finalize_treats_zero_final_k_as_unset (docs : List Document) (cfg : Config)
    (h : cfg.final_k = some 0) :
    finalize_results docs cfg = finalize_results docs { cfg with final_k := none }
    ∧ (finalize_results docs cfg).length ≤ cfg.k.getD 5 := by
  have hfk : pyOrNat cfg.final_k (cfg.k.getD 5) = cfg.k.getD 5 := by
    rw [h]
    simp [pyOrNat]
  constructor
  · simp [finalize_results, pyOrNat, h]
  · simp only [finalize_results, hfk]
    split
    · rw [List.length_take]
      exact min_le_left _ _
    · rename_i hlt
      omega

theorem finalize_zero_final_k_witness :
    ({ final_k := some 0, k := some 2 } : Config).final_k = some 0
    ∧ (finalize_results [⟨"aaa", 0⟩, ⟨"bbb", 1⟩, ⟨"ccc", 2⟩] { final_k := some 0, k := some 2 }
        = finalize_results [⟨"aaa", 0⟩, ⟨"bbb", 1⟩, ⟨"ccc", 2⟩]
            { ({ final_k := some 0, k := some 2 } : Config) with final_k := none }
      ∧ (finalize_results [⟨"aaa", 0⟩, ⟨"bbb", 1⟩, ⟨"ccc", 2⟩]
          { final_k := some 0, k := some 2 }).length
          ≤ ({ final_k := some 0, k := some 2 } : Config).k.getD 5) :=
  ⟨rfl, finalize_treats_zero_final_k_as_unset _ _ rfl⟩

/-! ## Retriever retry (C5) -/

/-- C5 — On failure of a non-plain-similarity call the retriever retries
exactly once, with plain similarity and the same `k`; the result of
`retrieve` is then determined by that single plain-similarity backend
call, whose failure propagates as a retrieval error. -/
theorem retrieve_retries_once_with_similarity (b : Backend) (query : String) (k : ℕ)
    (search_type : String) (skw : Option SearchKwargs) (e : String)
    (hst : search_type ≠ "similarity")
    (hfail : b query search_type (mergeSearchKwargs k skw) = Except.error e) :
    retrieve (some b) query k search_type skw =
      match b query "similarity" (mergeSearchKwargs k (some { k := some k })) with
      | Except.ok ds => Except.ok ds
      | Except.error e2 => Except.error ("base retrieval failed: " ++ e2) := by
  rw [retrieve]
  simp only [hfail]
  rw [if_neg hst, retrieve]
  rcases h2 : b query "similarity" (mergeSearchKwargs k (some { k := some k })) with ds | e2 <;>
    simp [h2]

theorem retrieve_retries_once_witness :
    ("mmr" : String) ≠ "similarity"
    ∧ retrieve (some simOnlyBackend) "q" 3 "mmr" none =
        match simOnlyBackend "q" "similarity" (mergeSearchKwargs 3 (some { k := some 3 })) with
        | Except.ok ds => Except.ok ds
        | Except.error e2 => Except.error ("base retrieval failed: " ++ e2) :=
  ⟨by decide, retrieve_retries_once_with_similarity simOnlyBackend "q" 3 "mmr" none "boom"
    (by decide) rfl⟩

/-! ## Query expansion (C3) -/

theorem uniqueKeep_not_seen (seen l : List String) :
    ∀ x ∈ uniqueKeep seen l, x ∉ seen := by
  induction l generalizing seen with
  | nil => simp [uniqueKeep]
  | cons q qs ih =>
    rw [uniqueKeep]
    split
    · rename_i hcond
      intro x hx
      rcases List.mem_cons.mp hx with hx | hx
      · subst hx
        exact hcond.1
      · intro hs
        exact (ih _ x hx) (List.mem_cons_of_mem _ hs)
    · exact ih seen

theorem uniqueKeep_nodup (seen l : List String) : (uniqueKeep seen l).Nodup := by
  induction l generalizing seen with
  | nil => simp [uniqueKeep]
  | cons q qs ih =>
    rw [uniqueKeep]
    split
    · refine List.nodup_cons.mpr ⟨?_, ih _⟩
      intro hq
      exact (uniqueKeep_not_seen _ _ q hq) (List.mem_cons_self _ _)
    · exact ih seen

/-- C3 counterexample — the claim `expand(query)[0] == normalize(query)`
fails as stated: `expand_query` preserves the *original* query as first
element and performs no normalization of its own (normalization happens
before expansion in the pipeline), so any non-normalized query
separates the two sides. -/
theorem expand_head_ne_normalize_counterexample :
    (expand_query "a  b").head? ≠ some (normalize_query "a  b")
    ∧ (expand_query "a  b").head? = some "a  b"
    ∧ normalize_query "a  b" = "a b" := by
  refine ⟨?_, by decide, by decide⟩
  decide

/-- C3 (amended) — for every query whose stripped form is nonempty, the
expansion sequence starts with the query itself (which in the pipeline
is already the normalized query) and contains no duplicates. -/
theorem expand_query_head_and_nodup (q : String) (h : pyStrip q ≠ "") :
    (expand_query q).head? = some q ∧ (expand_query q).Nodup := by
  constructor
  · rw [expand_query, uniqueKeep, if_pos ⟨by simp, h⟩]
    rfl
  · exact uniqueKeep_nodup _ _

theorem expand_query_head_witness :
    pyStrip "hello" ≠ ""
    ∧ ((expand_query "hello").head? = some "hello" ∧ (expand_query "hello").Nodup) :=
  ⟨by decide, expand_query_head_and_nodup "hello" (by decide)⟩

/-! ## Normalization (C4) -/

theorem collapseGo_true_eq_dropWhile (l : List Char) :
    collapseGo true l = collapseGo false (l.dropWhile pyIsSpace) := by
  induction l with
  | nil => rfl
  | cons c cs ih =>
    by_cases hc : pyIsSpace c
    · rw [collapseGo, if_pos hc, if_pos rfl, List.dropWhile_cons_of_pos hc, ih]
    · rw [List.dropWhile_cons_of_neg hc]
      rw [collapseGo, if_neg hc, collapseGo, if_neg hc]

theorem squashSpaces_space_cons (cs : List Char) :
    squashSpaces (' ' :: cs.map spaceNormChar)
      = ' ' :: squashSpaces ((cs.dropWhile pyIsSpace).map spaceNormChar) := by
  induction cs with
  | nil => rfl
  | cons b t ih =>
    by_cases hb : pyIsSpace b
    · have hmap : spaceNormChar b = ' ' := by simp [spaceNormChar, hb]
      rw [List.map_cons, hmap, squashSpaces, if_pos ⟨rfl, rfl⟩,
        List.dropWhile_cons_of_pos hb, ih]
    · have hb' : b ≠ ' ' := fun h => hb (by rw [h]; rfl)
      have hmap : spaceNormChar b = b := by simp [spaceNormChar, hb]
      rw [List.map_cons, hmap, squashSpaces, if_neg (fun hh => hb' hh.2),
        List.dropWhile_cons_of_neg hb, List.map_cons, hmap]

theorem squashSpaces_nonspace_cons (c : Char) (l : List Char) (hc : c ≠ ' ') :
    squashSpaces (c :: l) = c :: squashSpaces l := by
  cases l with
  | nil => rfl
  | cons b t => rw [squashSpaces, if_neg (fun hh => hc hh.1)]

theorem collapseGo_false_eq_squash :
    ∀ (n : ℕ) (l : List Char), l.length ≤ n →
      collapseGo false l = squashSpaces (l.map spaceNormChar) := by
  intro n
  induction n with
  | zero =>
    intro l hl
    cases l with
    | nil => rfl
    | cons c cs => simp at hl
  | succ n ih =>
    intro l hl
    cases l with
    | nil => rfl
    | cons c cs =>
      by_cases hc : pyIsSpace c
      · have hmap : spaceNormChar c = ' ' := by simp [spaceNormChar, hc]
        rw [collapseGo, if_pos hc, collapseGo_true_eq_dropWhile, List.map_cons, hmap,
          squashSpaces_space_cons,
          ih _ (le_trans (dropWhile_length_le pyIsSpace cs) (Nat.le_of_succ_le_succ hl))]
        simp
      · have hc' : c ≠ ' ' := fun h => hc (by rw [h]; rfl)
        have hmap : spaceNormChar c = c := by simp [spaceNormChar, hc]
        rw [collapseGo, if_neg hc, List.map_cons, hmap,
          squashSpaces_nonspace_cons c _ hc', ih _ (Nat.le_of_succ_le_succ hl)]

/-- C4 — `normalize_query` strips the query, collapses every whitespace
run to a single space (proved against the independent
`squashSpaces ∘ map spaceNormChar` formulation of run collapsing), and
removes exactly the characters outside the whitelist; every character of
the output is whitelisted.  The function is total (never raises); the
spec's regex-failure fallback is vacuous, the two regexes being
constant. -/
theorem normalize_collapses_and_whitelists (s : String) :
    normalize_query s
      = ⟨(squashSpaces ((pyStrip s).data.map spaceNormChar)).filter keepChar⟩
    ∧ ∀ c ∈ (normalize_query s).data, keepChar c = true := by
  constructor
  · rw [normalize_query, collapseWsRe,
      collapseGo_false_eq_squash (pyStrip s).data.length _ (Nat.le_refl _)]
  · intro c hc
    rw [normalize_query] at hc
    exact (List.mem_filter.mp hc).2

/-! ## Pipeline degradation (C1, C2) -/

theorem retrieve_none_error (q : String) (k : ℕ) (st : String) (skw : Option SearchKwargs) :
    retrieve none q k st skw = Except.error "vector store not initialized" := by
  rw [retrieve]

theorem retrieve_error_of_backend_error (b : Backend) (q : String) (k : ℕ) (st : String)
    (skw : Option SearchKwargs)
    (hfail : ∀ x y z, ∃ e, b x y z = Except.error e) :
    ∃ e, retrieve (some b) q k st skw = Except.error e := by
  obtain ⟨e1, he1⟩ := hfail q st (mergeSearchKwargs k skw)
  by_cases hst : st = "similarity"
  · subst hst
    refine ⟨"base retrieval failed: " ++ e1, ?_⟩
    rw [retrieve, he1]
    simp
  · obtain ⟨e2, he2⟩ := hfail q "similarity" (mergeSearchKwargs k (some { k := some k }))
    refine ⟨"base retrieval failed: " ++ e2, ?_⟩
    rw [retrieve, he1]
    simp only [if_neg hst]
    rw [retrieve, he2]
    simp

theorem retrieveStep_of_fail (vs : Option Backend) (cfg : Config) (acc : List Document)
    (q : String)
    (hfail : ∀ q' k st skw, ∃ e, retrieve vs q' k st skw = Except.error e) :
    retrieveStep vs cfg acc q = acc := by
  obtain ⟨e1, he1⟩ :=
    hfail q (cfg.k.getD 5) (retrieveSearchType cfg) (some (retrieveSearchKwargs cfg))
  obtain ⟨e2, he2⟩ := hfail q (cfg.k.getD 5) "similarity" none
  rw [retrieveStep, he1, he2]

theorem retrieve_documents_empty (vs : Option Backend) (queries : List String) (cfg : Config)
    (hfail : ∀ q' k st skw, ∃ e, retrieve vs q' k st skw = Except.error e) :
    retrieve_documents vs queries cfg = [] := by
  rw [retrieve_documents]
  suffices hgen : ∀ acc : List Document, queries.foldl (retrieveStep vs cfg) acc = acc from
    hgen []
  intro acc
  induction queries generalizing acc with
  | nil => rfl
  | cons q qs ih =>
    rw [List.foldl_cons, retrieveStep_of_fail vs cfg acc q hfail]
    exact ih acc

theorem invoke_empty_of_fail (p : RetrievalPipeline) (query : String) (kw : Config)
    (hfail : ∀ q' k st skw, ∃ e, retrieve p.vectorstore q' k st skw = Except.error e)
    (hmiss : (if p.enable_cache then p.cache.lookup query else none) = none) :
    invoke p query kw
      = ([], if p.enable_cache then (query, []) :: p.cache else p.cache) := by
  have hrd : ∀ queries cfg, retrieve_documents p.vectorstore queries cfg = [] :=
    fun queries cfg => retrieve_documents_empty p.vectorstore queries cfg hfail
  rw [invoke, hmiss]
  cases hpe : p.enable_cache <;>
    simp [hpe, hrd, postprocess_documents, rerank_documents, finalize_results]

/-- C1 — `invoke` is a total function of its inputs (it returns a list,
never an exception: every failure of the backend is absorbed by
`retrieve_documents`, `expand_query`, and the reranker fallbacks); in
the worst case — a vector store that failed to initialise, so that every
retrieval raises, with caching disabled — it returns the empty list and
leaves the cache untouched. -/
theorem invoke_total_worst_case_empty (p : RetrievalPipeline) (query : String) (kw : Config)
    (h1 : p.vectorstore = none) (h2 : p.enable_cache = false) :
    invoke p query kw = ([], p.cache) := by
  have hfail : ∀ q' k st skw, ∃ e, retrieve p.vectorstore q' k st skw = Except.error e := by
    intro q' k st skw
    rw [h1, retrieve_none_error]
    exact ⟨_, rfl⟩
  have h := invoke_empty_of_fail p query kw hfail (by rw [h2]; rfl)
  rw [h, h2]
  simp

theorem invoke_total_worst_case_witness :
    pipelineNoStore.vectorstore = none
    ∧ pipelineNoStore.enable_cache = false
    ∧ invoke pipelineNoStore "hi" {} = ([], []) :=
  ⟨rfl, rfl, invoke_total_worst_case_empty pipelineNoStore "hi" {} rfl rfl⟩

/-- C2 counterexample — with an always-raising backend and caching
enabled, `invoke` DOES store an entry (the empty list) in the cache
under the query's key, contradicting the claim that no entry is stored:
the all-variants-fail case is absorbed inside `_retrieve_documents`,
the whole-pipeline fallback is never reached, and the normal path
caches its (empty) result. -/
theorem invoke_caches_empty_counterexample :
    (invoke pipelineDown "q" {}).2.lookup "q" = some []
    ∧ (invoke pipelineDown "q" {}).1 = [] := by
  have hfail : ∀ q' k st skw, ∃ e, retrieve pipelineDown.vectorstore q' k st skw
      = Except.error e := fun q' k st skw =>
    retrieve_error_of_backend_error downBackend q' k st skw (fun _ _ _ => ⟨"down", rfl⟩)
  have h := invoke_empty_of_fail pipelineDown "q" {} hfail rfl
  rw [h]
  exact ⟨rfl, rfl⟩

/-- C2 (amended) — if every Vector Index call raises, `invoke` still
returns (it is total) and its result is the empty list; but the
whole-pipeline fallback is not triggered (per-variant failures are
absorbed inside `_retrieve_documents`, which returns the empty
concatenation), and when caching is enabled the empty result IS stored
in the cache under the raw query key; the cache is left untouched only
when caching is disabled. -/
theorem invoke_all_variants_fail (p : RetrievalPipeline) (query : String) (kw : Config)
    (b : Backend) (hb : p.vectorstore = some b)
    (hfail : ∀ x y z, ∃ e, b x y z = Except.error e)
    (hmiss : p.cache.lookup query = none) :
    invoke p query kw
      = ([], if p.enable_cache then (query, []) :: p.cache else p.cache) := by
  refine invoke_empty_of_fail p query kw ?_ ?_
  · intro q' k st skw
    rw [hb]
    exact retrieve_error_of_backend_error b q' k st skw hfail
  · cases hpe : p.enable_cache <;> simp [hmiss]

theorem invoke_all_variants_fail_witness :
    pipelineDown.vectorstore = some downBackend
    ∧ pipelineDown.cache.lookup "q" = none
    ∧ invoke pipelineDown "q" {} = ([], [("q", [])]) :=
  ⟨rfl, rfl, invoke_all_variants_fail pipelineDown "q" {} downBackend rfl
    (fun _ _ _ => ⟨"down", rfl⟩) rfl⟩

/-! ## Relevance score (C7) -/

theorem exact_match_score_bounds (q : String) (d : Document) :
    0 ≤ exact_match_score q d ∧ exact_match_score q d ≤ 1 := by
  rw [exact_match_score]
  split <;> norm_num

theorem keyword_score_bounds (q : String) (d : Document) :
    0 ≤ keyword_score q d ∧ keyword_score q d ≤ 1 := by
  simp only [keyword_score]
  split
  · norm_num
  · rename_i hne
    have hpos : 0 < ((wordFinset (lowerStr q)).card : ℝ) := by
      have := Finset.card_pos.mpr (Finset.nonempty_iff_ne_empty.mpr hne)
      exact_mod_cast this
    constructor
    · exact div_nonneg (Nat.cast_nonneg _) (Nat.cast_nonneg _)
    · rw [div_le_one hpos]
      exact_mod_cast Finset.card_le_card Finset.inter_subset_left

theorem word_freq_score_bounds (q : String) (d : Document) :
    0 ≤ word_freq_score q d ∧ word_freq_score q d ≤ 1 := by
  simp only [word_freq_score]
  have hraw : 0 ≤ Finset.sum (wordFinset (lowerStr q)) (fun w =>
      if occursIn w.data (lowerStr d.page_content).data then
        Real.log (1 + (countOccs w.data (lowerStr d.page_content).data : ℝ)) else 0) := by
    refine Finset.sum_nonneg fun w _ => ?_
    split
    · exact Real.log_nonneg (le_add_of_nonneg_right (Nat.cast_nonneg _))
    · exact le_refl 0
  split
  · rename_i hqw
    rw [hqw] at hraw ⊢
    simp
  · constructor
    · exact le_min (div_nonneg hraw (Nat.cast_nonneg _)) zero_le_one
    · exact min_le_right _ _

theorem length_penalty_bounds (d : Document) :
    0 ≤ length_penalty d ∧ length_penalty d ≤ 1 := by
  rw [length_penalty]
  have hlog : 0 ≤ Real.log
      (1 + ((pySplitWs (lowerStr d.page_content).data).length : ℝ) / 100) := by
    refine Real.log_nonneg (le_add_of_nonneg_right ?_)
    positivity
  constructor
  · apply div_nonneg <;> linarith
  · rw [div_le_one (by linarith)]
    linarith

/-- C7 — The relevance score equals the weighted sum
`0.4·exact + 0.3·keyword_overlap + 0.2·normalized_log_tf +
0.1·length_penalty` (the final `min(·, 1)` clamp is the identity because
the weighted sum never exceeds 1), the keyword-overlap ratio is 0 when
the query has no words, and the score always lies in `[0, 1]`. -/
theorem relevance_score_formula_and_bounds (q : String) (d : Document) :
    calculate_relevance_score q d
        = 0.4 * exact_match_score q d + 0.3 * keyword_score q d
          + 0.2 * word_freq_score q d + 0.1 * length_penalty d
    ∧ 0 ≤ calculate_relevance_score q d
    ∧ calculate_relevance_score q d ≤ 1
    ∧ keyword_score q d
        = (if wordFinset (lowerStr q) = ∅ then 0
           else ((wordFinset (lowerStr q) ∩ wordFinset (lowerStr d.page_content)).card : ℝ)
             / ((wordFinset (lowerStr q)).card : ℝ)) := by
  obtain ⟨e0, e1⟩ := exact_match_score_bounds q d
  obtain ⟨k0, k1⟩ := keyword_score_bounds q d
  obtain ⟨w0, w1⟩ := word_freq_score_bounds q d
  obtain ⟨p0, p1⟩ := length_penalty_bounds d
  have hsum0 : 0 ≤ 0.4 * exact_match_score q d + 0.3 * keyword_score q d
      + 0.2 * word_freq_score q d + 0.1 * length_penalty d := by
    have h1 : (0:ℝ) ≤ 0.4 * exact_match_score q d := by linarith
    have h2 : (0:ℝ) ≤ 0.3 * keyword_score q d := by linarith
    have h3 : (0:ℝ) ≤ 0.2 * word_freq_score q d := by linarith
    have h4 : (0:ℝ) ≤ 0.1 * length_penalty d := by linarith
    linarith
  have hsum1 : 0.4 * exact_match_score q d + 0.3 * keyword_score q d
      + 0.2 * word_freq_score q d + 0.1 * length_penalty d ≤ 1 := by
    have h1 : 0.4 * exact_match_score q d ≤ 0.4 := by linarith
    have h2 : 0.3 * keyword_score q d ≤ 0.3 := by linarith
    have h3 : 0.2 * word_freq_score q d ≤ 0.2 := by linarith
    have h4 : 0.1 * length_penalty d ≤ 0.1 := by linarith
    linarith
  refine ⟨?_, ?_, ?_, rfl⟩
  · rw [calculate_relevance_score]
    exact min_eq_left hsum1
  · rw [calculate_relevance_score]
    exact le_min hsum0 zero_le_one
  · rw [calculate_relevance_score]
    exact min_le_right _ _

/-! ## Reranking permutation machinery (C9) -/

theorem insertD_perm {α : Type} (key : α → ℝ) (a : α) (l : List α) :
    (insertD key a l).Perm (a :: l) := by
  induction l with
  | nil => exact List.Perm.refl _
  | cons b bs ih =>
    rw [insertD]
    split
    · exact List.Perm.refl _
    · exact (List.Perm.cons b ih).trans (List.Perm.swap a b bs)

theorem stableSortDesc_perm {α : Type} (key : α → ℝ) (l : List α) :
    (stableSortDesc key l).Perm l := by
  induction l with
  | nil => exact List.Perm.refl _
  | cons a t ih => exact (insertD_perm key a _).trans (List.Perm.cons a ih)

theorem subperm_map {α β : Type} (f : α → β) {l₁ l₂ : List α} (h : l₁.Subperm l₂) :
    (l₁.map f).Subperm (l₂.map f) := by
  obtain ⟨l, hp, hs⟩ := h
  exact ⟨l.map f, hp.map f, hs.map f⟩

theorem takeOpt_sublist {α : Type} (tk : Option ℕ) (l : List α) :
    (takeOpt tk l).Sublist l := by
  cases tk with
  | none => exact List.Sublist.refl _
  | some k => exact List.take_sublist _ _

theorem takeTruthy_sublist {α : Type} (tk : Option ℕ) (l : List α) :
    (takeTruthy tk l).Sublist l := by
  cases tk with
  | none => exact List.Sublist.refl _
  | some k =>
    rw [takeTruthy]
    split
    · exact List.Sublist.refl _
    · exact List.take_sublist _ _

theorem map_getD_range {α : Type} [Inhabited α] (l : List α) :
    (List.range l.length).map (fun i => l.getD i default) = l := by
  induction l with
  | nil => rfl
  | cons a t ih =>
    rw [List.length_cons, List.range_succ_eq_map, List.map_cons, List.map_map]
    have hcomp : ((fun i => (a :: t).getD i default) ∘ Nat.succ)
        = fun i => t.getD i default := rfl
    rw [hcomp, ih]
    rfl

theorem maxLeft_mem {α : Type} (key : α → ℝ) :
    ∀ (t : List α) (a : α), maxLeft key a t ∈ a :: t := by
  intro t
  induction t with
  | nil =>
    intro a
    simp [maxLeft]
  | cons b t ih =>
    intro a
    by_cases hab : key a < key b
    · rw [maxLeft, if_pos hab]
      have h := ih b
      rcases List.mem_cons.mp h with h | h
      · rw [h]
        exact List.mem_cons_of_mem _ (List.mem_cons_self _ _)
      · exact List.mem_cons_of_mem _ (List.mem_cons_of_mem _ h)
    · rw [maxLeft, if_neg hab]
      have h := ih a
      rcases List.mem_cons.mp h with h | h
      · rw [h]
        exact List.mem_cons_self _ _
      · exact List.mem_cons_of_mem _ (List.mem_cons_of_mem _ h)

theorem pickBest_mem {α : Type} (key : α → ℝ) {l : List α} {m : α}
    (h : pickBest key l = some m) : m ∈ l := by
  cases l with
  | nil => simp [pickBest] at h
  | cons a t =>
    rw [pickBest] at h
    have hm := maxLeft_mem key t a
    have heq : maxLeft key a t = m := by injection h
    rwa [heq] at hm

theorem mmrLoop_append_subperm (rel : ℕ → ℝ) (sim : ℕ → ℕ → ℝ) (lam : ℝ) (tk : Option ℕ) :
    ∀ (fuel : ℕ) (sel rem : List ℕ),
      ∃ extra, mmrLoop rel sim lam tk fuel sel rem = sel ++ extra ∧ extra.Subperm rem := by
  intro fuel
  induction fuel with
  | zero =>
    intro sel rem
    exact ⟨[], by simp [mmrLoop], List.nil_subperm⟩
  | succ fuel ih =>
    intro sel rem
    rw [mmrLoop]
    split
    · exact ⟨[], by simp, List.nil_subperm⟩
    · split
      · exact ⟨[], by simp, List.nil_subperm⟩
      · cases hpb : pickBest
            (fun i => lam * rel i - (1 - lam) * maxSimTo sim i sel) rem with
        | none => exact ⟨[], by simp, List.nil_subperm⟩
        | some b =>
          obtain ⟨extra, heq, hsub⟩ := ih (sel ++ [b]) (rem.erase b)
          refine ⟨b :: extra, ?_, ?_⟩
          · show mmrLoop rel sim lam tk fuel (sel ++ [b]) (rem.erase b) = sel ++ b :: extra
            rw [heq]
            simp
          · have hb : b ∈ rem := pickBest_mem _ hpb
            have h1 : (b :: extra).Subperm (b :: rem.erase b) :=
              (List.subperm_cons _).mpr hsub
            exact h1.trans (List.Perm.subperm (List.perm_cons_erase hb).symm)

theorem rerank_by_relevance_subperm (q : String) (docs : List Document) (tk : Option ℕ) :
    (rerank_by_relevance q docs tk).Subperm docs := by
  rw [rerank_by_relevance]
  split
  · exact List.nil_subperm
  · have h1 := takeOpt_sublist tk (stableSortDesc (fun p => p.2)
      (docs.map (fun d => (d, calculate_relevance_score q d))))
    have h2 := stableSortDesc_perm (fun p => p.2)
      (docs.map (fun d => (d, calculate_relevance_score q d)))
    have h4 := h2.map (fun p : Document × ℝ => p.1)
    have h5 : (docs.map (fun d => (d, calculate_relevance_score q d))).map
        (fun p : Document × ℝ => p.1) = docs := by
      have hcomp : ((fun p : Document × ℝ => p.1) ∘ fun d => (d, calculate_relevance_score q d))
          = fun d : Document => d := rfl
      rw [List.map_map, hcomp]
      exact List.map_id' docs
    rw [h5] at h4
    exact ((h1.map Prod.fst).subperm).trans h4.subperm

theorem diversityIdx_subperm (q : String) (docs : List Document) (tk : Option ℕ) (lam : ℝ) :
    (diversityIdx q docs tk lam).Subperm (List.range docs.length) := by
  rw [diversityIdx]
  split
  · exact (List.Perm.refl _).subperm
  · cases hpb : pickBest (relKey q docs) (List.range docs.length) with
    | none => exact List.nil_subperm
    | some first =>
      obtain ⟨extra, heq, hsub⟩ :=
        mmrLoop_append_subperm (relKey q docs) (simKey docs) lam tk
          ((List.range docs.length).erase first).length [first]
          ((List.range docs.length).erase first)
      show (mmrLoop (relKey q docs) (simKey docs) lam tk
        ((List.range docs.length).erase first).length [first]
        ((List.range docs.length).erase first)).Subperm (List.range docs.length)
      rw [heq]
      have hmem : first ∈ List.range docs.length := pickBest_mem _ hpb
      have h1 : (first :: extra).Subperm (first :: (List.range docs.length).erase first) :=
        (List.subperm_cons _).mpr hsub
      simpa using h1.trans (List.Perm.subperm (List.perm_cons_erase hmem).symm)

theorem rerank_by_diversity_subperm (q : String) (docs : List Document) (tk : Option ℕ)
    (lam : ℝ) : (rerank_by_diversity q docs tk lam).Subperm docs := by
  rw [rerank_by_diversity]
  split
  · exact List.nil_subperm
  · have h := subperm_map (fun i => docs.getD i default) (diversityIdx_subperm q docs tk lam)
    rwa [map_getD_range] at h

theorem take_sort_map_subperm (key : ℕ → ℝ) (tk : Option ℕ) (docs : List Document) :
    (takeTruthy tk ((stableSortDesc key (List.range docs.length)).map
      (fun i => docs.getD i default))).Subperm docs := by
  have h1 := takeTruthy_sublist tk ((stableSortDesc key (List.range docs.length)).map
    (fun i => docs.getD i default))
  have h2 := (stableSortDesc_perm key (List.range docs.length)).map
    (fun i => docs.getD i default)
  rw [map_getD_range] at h2
  exact h1.subperm.trans h2.subperm

theorem rerank_hybrid_subperm (q : String) (docs : List Document) (tk : Option ℕ)
    (rw dw : ℝ) : (rerank_hybrid q docs tk rw dw).Subperm docs := by
  rw [rerank_hybrid]
  split
  · exact List.nil_subperm
  · exact take_sort_map_subperm _ tk docs

/-- C9 — Whatever the query, strategy name (including unknown ones),
`top_k`, threshold and weights, `rerank` only reorders and drops
candidates: its output is a sub-permutation of its input, so every
output element is an input element and no element appears more often
than in the input.  (The source's `except` fallbacks, unreachable in the
pure model, return `documents[:top_k]` or `documents` and satisfy the
same bound.) -/
theorem rerank_only_reorders_and_drops (q : String) (docs : List Document)
    (strategy : String) (tk : Option ℕ) (lam rw dw : ℝ) :
    (rerank q docs strategy tk lam rw dw).Subperm docs
    ∧ ∀ d : Document, (rerank q docs strategy tk lam rw dw).count d ≤ docs.count d := by
  have hsub : (rerank q docs strategy tk lam rw dw).Subperm docs := by
    rw [rerank]
    split
    · exact rerank_by_relevance_subperm q docs tk
    · split
      · exact rerank_by_diversity_subperm q docs tk lam
      · split
        · exact rerank_hybrid_subperm q docs tk rw dw
        · exact rerank_by_relevance_subperm q docs tk
  exact ⟨hsub, fun d => hsub.count_le d⟩

/-! ## MMR correctness (C8): the first maximiser, stable sort as greedy
extraction -/

theorem pickBest_eq_none {α : Type} (key : α → ℝ) {l : List α}
    (h : pickBest key l = none) : l = [] := by
  cases l with
  | nil => rfl
  | cons a t => simp [pickBest] at h

/-- Characterisation of Python's first-maximiser scan: the scanned list
splits at the returned element, everything before it is strictly
smaller, everything after it is no larger. -/
theorem maxLeft_split {α : Type} (key : α → ℝ) :
    ∀ (t : List α) (a : α), ∃ l₁ l₂, a :: t = l₁ ++ maxLeft key a t :: l₂
      ∧ (∀ x ∈ l₁, key x < key (maxLeft key a t))
      ∧ (∀ x ∈ l₂, key x ≤ key (maxLeft key a t)) := by
  intro t
  induction t with
  | nil =>
    intro a
    exact ⟨[], [], rfl, by simp, by simp⟩
  | cons b t ih =>
    intro a
    by_cases hab : key a < key b
    · have hstep : maxLeft key a (b :: t) = maxLeft key b t := by
        rw [maxLeft, if_pos hab]
      rw [hstep]
      obtain ⟨l₁, l₂, hsplit, hlt, hle⟩ := ih b
      have hball : ∀ x ∈ b :: t, key x ≤ key (maxLeft key b t) := by
        rw [hsplit]
        intro x hx
        rcases List.mem_append.mp hx with hx | hx
        · exact le_of_lt (hlt x hx)
        · rcases List.mem_cons.mp hx with hx | hx
          · rw [hx]
          · exact hle x hx
      refine ⟨a :: l₁, l₂, ?_, ?_, hle⟩
      · rw [List.cons_append, ← hsplit]
      · intro x hx
        rcases List.mem_cons.mp hx with hx | hx
        · subst hx
          exact lt_of_lt_of_le hab (hball b (List.mem_cons_self _ _))
        · exact hlt x hx
    · have hstep : maxLeft key a (b :: t) = maxLeft key a t := by
        rw [maxLeft, if_neg hab]
      rw [hstep]
      obtain ⟨l₁, l₂, hsplit, hlt, hle⟩ := ih a
      have hba : key b ≤ key a := le_of_not_lt hab
      cases l₁ with
      | nil =>
        have ham : a = maxLeft key a t := by injection hsplit with h1 h2
        have htl : t = l₂ := by injection hsplit with h1 h2
        refine ⟨[], b :: l₂, ?_, by simp, ?_⟩
        · rw [List.nil_append, ← ham, htl]
        · intro x hx
          rcases List.mem_cons.mp hx with hx | hx
          · subst hx
            rw [← ham]
            exact hba
          · exact hle x hx
      | cons a' l₁' =>
        have haa : a = a' := by injection hsplit with h1 h2
        have htl : t = l₁' ++ maxLeft key a t :: l₂ := by injection hsplit with h1 h2
        have haml : key a < key (maxLeft key a t) := by
          refine hlt a ?_
          rw [haa]
          exact List.mem_cons_self _ _
        refine ⟨a :: b :: l₁', l₂, ?_, ?_, hle⟩
        · rw [List.cons_append, List.cons_append, ← htl]
        · intro x hx
          rcases List.mem_cons.mp hx with hx | hx
          · subst hx
            exact haml
          · rcases List.mem_cons.mp hx with hx | hx
            · subst hx
              exact lt_of_le_of_lt hba haml
            · exact hlt x (List.mem_cons_of_mem _ hx)
theorem pickBest_split {α : Type} (key : α → ℝ) {l : List α} {m : α}
    (h : pickBest key l = some m) :
    ∃ l₁ l₂, l = l₁ ++ m :: l₂ ∧ (∀ x ∈ l₁, key x < key m) ∧ (∀ x ∈ l₂, key x ≤ key m) := by
  cases l with
  | nil => simp [pickBest] at h
  | cons a t =>
    rw [pickBest] at h
    have hm : maxLeft key a t = m := by injection h
    obtain ⟨l₁, l₂, hsplit, hlt, hle⟩ := maxLeft_split key t a
    rw [hm] at hsplit hlt hle
    exact ⟨l₁, l₂, hsplit, hlt, hle⟩

theorem pickBest_le {α : Type} (key : α → ℝ) {l : List α} {m : α}
    (h : pickBest key l = some m) : ∀ x ∈ l, key x ≤ key m := by
  obtain ⟨l₁, l₂, hsplit, hlt, hle⟩ := pickBest_split key h
  intro x hx
  rw [hsplit] at hx
  rcases List.mem_append.mp hx with hx | hx
  · exact le_of_lt (hlt x hx)
  · rcases List.mem_cons.mp hx with hx | hx
    · rw [hx]
    · exact hle x hx

theorem insertD_of_le {α : Type} (key : α → ℝ) (m : α) (X : List α)
    (hall : ∀ x ∈ X, key x ≤ key m) : insertD key m X = m :: X := by
  cases X with
  | nil => rfl
  | cons b bs => rw [insertD, if_pos (hall b (List.mem_cons_self _ _))]

theorem stableSortDesc_extract {α : Type} (key : α → ℝ) (m : α) :
    ∀ (l₁ l₂ : List α), (∀ x ∈ l₁, key x < key m) → (∀ x ∈ l₂, key x ≤ key m) →
      stableSortDesc key (l₁ ++ m :: l₂) = m :: stableSortDesc key (l₁ ++ l₂) := by
  intro l₁
  induction l₁ with
  | nil =>
    intro l₂ _ hle
    rw [List.nil_append, List.nil_append, stableSortDesc]
    refine insertD_of_le key m _ ?_
    intro x hx
    exact hle x ((stableSortDesc_perm key l₂).mem_iff.mp hx)
  | cons a l₁ ih =>
    intro l₂ hlt hle
    rw [List.cons_append, stableSortDesc,
      ih l₂ (fun x hx => hlt x (List.mem_cons_of_mem _ hx)) hle]
    have ha : key a < key m := hlt a (List.mem_cons_self _ _)
    rw [insertD, if_neg (not_le.mpr ha)]
    rfl

/-- Stable descending sort extracts the first maximiser: its head is
`pickBest` and its tail is the sort of the list with that occurrence
erased. -/
theorem stableSortDesc_eq_pickBest_cons (key : ℕ → ℝ) {l : List ℕ} {m : ℕ}
    (h : pickBest key l = some m) :
    stableSortDesc key l = m :: stableSortDesc key (l.erase m) := by
  obtain ⟨l₁, l₂, hsplit, hlt, hle⟩ := pickBest_split key h
  have hm : m ∉ l₁ := fun hm => absurd (hlt m hm) (lt_irrefl _)
  rw [hsplit, stableSortDesc_extract key m l₁ l₂ hlt hle]
  congr 1
  rw [List.erase_append_right _ hm, List.erase_cons_head]

theorem greedy_cons (key : ℕ → ℝ) {rem : List ℕ} {m : ℕ}
    (h : pickBest key rem = some m) :
    greedyAll key rem.length rem
      = m :: greedyAll key (rem.erase m).length (rem.erase m) := by
  have hm : m ∈ rem := pickBest_mem _ h
  have hpos : 0 < rem.length := List.length_pos.mpr (List.ne_nil_of_mem hm)
  have hlen : rem.length = (rem.erase m).length + 1 := by
    rw [List.length_erase_of_mem hm]
    omega
  rw [hlen, greedyAll, h]

/-- Greedy first-maximiser extraction computes exactly the stable
descending sort. -/
theorem greedyAll_eq_stableSortDesc (key : ℕ → ℝ) :
    ∀ (n : ℕ) (l : List ℕ), l.length = n → greedyAll key n l = stableSortDesc key l := by
  intro n
  induction n with
  | zero =>
    intro l hl
    rw [List.length_eq_zero.mp hl]
    rfl
  | succ n ih =>
    intro l hl
    cases hpb : pickBest key l with
    | none =>
      rw [pickBest_eq_none key hpb] at hl
      simp at hl
    | some m =>
      have hm : m ∈ l := pickBest_mem _ hpb
      have hlen : (l.erase m).length = n := by
        rw [List.length_erase_of_mem hm, hl]
        rfl
      rw [greedyAll, hpb]
      show m :: greedyAll key n (l.erase m) = stableSortDesc key l
      rw [ih (l.erase m) hlen, stableSortDesc_eq_pickBest_cons key hpb]

theorem mmrLoop_of_reached (rel : ℕ → ℝ) (sim : ℕ → ℕ → ℝ) (lam : ℝ) (tk : Option ℕ)
    (fuel : ℕ) (sel rem : List ℕ) (h : tkReached tk sel.length = true) :
    mmrLoop rel sim lam tk fuel sel rem = sel := by
  cases fuel with
  | zero => rfl
  | succ fuel =>
    rw [mmrLoop]
    split
    all_goals simp [h]

/-- At `λ = 1` the MMR objective degenerates to pure relevance. -/
theorem mmr_objective_lam_one (rel : ℕ → ℝ) (sim : ℕ → ℕ → ℝ) (sel : List ℕ) :
    (fun i => (1 : ℝ) * rel i - (1 - 1) * maxSimTo sim i sel) = rel :=
  funext fun i => by ring

theorem mmrLoop_lam_one_none (rel : ℕ → ℝ) (sim : ℕ → ℕ → ℝ) :
    ∀ (fuel : ℕ) (sel rem : List ℕ), rem.length ≤ fuel →
      mmrLoop rel sim 1 none fuel sel rem = sel ++ greedyAll rel rem.length rem := by
  intro fuel
  induction fuel with
  | zero =>
    intro sel rem hlen
    rw [List.length_eq_zero.mp (Nat.le_zero.mp hlen)]
    simp [mmrLoop, greedyAll]
  | succ fuel ih =>
    intro sel rem hlen
    rw [mmrLoop]
    by_cases hrem : rem = []
    · rw [if_pos hrem, hrem]
      simp [greedyAll]
    · rw [if_neg hrem]
      have htk : ¬(tkReached none sel.length = true) := by simp [tkReached]
      rw [if_neg htk, mmr_objective_lam_one rel sim sel]
      cases hpb : pickBest rel rem with
      | none => exact absurd (pickBest_eq_none rel hpb) hrem
      | some m =>
        show mmrLoop rel sim 1 none fuel (sel ++ [m]) (rem.erase m)
          = sel ++ greedyAll rel rem.length rem
        have hm : m ∈ rem := pickBest_mem _ hpb
        have hpos : 0 < rem.length := List.length_pos.mpr hrem
        have hlen2 : (rem.erase m).length ≤ fuel := by
          rw [List.length_erase_of_mem hm]
          omega
        rw [ih (sel ++ [m]) (rem.erase m) hlen2, greedy_cons rel hpb]
        simp

theorem mmrLoop_lam_one_some (rel : ℕ → ℝ) (sim : ℕ → ℕ → ℝ) (K : ℕ) :
    ∀ (fuel : ℕ) (sel rem : List ℕ), rem.length ≤ fuel →
      mmrLoop rel sim 1 (some K) fuel sel rem
        = sel ++ (greedyAll rel rem.length rem).take (K - sel.length) := by
  intro fuel
  induction fuel with
  | zero =>
    intro sel rem hlen
    rw [List.length_eq_zero.mp (Nat.le_zero.mp hlen)]
    simp [mmrLoop, greedyAll]
  | succ fuel ih =>
    intro sel rem hlen
    rw [mmrLoop]
    by_cases hrem : rem = []
    · rw [if_pos hrem, hrem]
      simp [greedyAll]
    · rw [if_neg hrem]
      by_cases hK : K ≤ sel.length
      · have htk : tkReached (some K) sel.length = true := by simp [tkReached, hK]
        rw [if_pos htk, Nat.sub_eq_zero_of_le hK]
        simp
      · have htk : ¬(tkReached (some K) sel.length = true) := by simp [tkReached]; omega
        rw [if_neg htk, mmr_objective_lam_one rel sim sel]
        cases hpb : pickBest rel rem with
        | none => exact absurd (pickBest_eq_none rel hpb) hrem
        | some m =>
          show mmrLoop rel sim 1 (some K) fuel (sel ++ [m]) (rem.erase m)
            = sel ++ (greedyAll rel rem.length rem).take (K - sel.length)
          have hm : m ∈ rem := pickBest_mem _ hpb
          have hpos : 0 < rem.length := List.length_pos.mpr hrem
          have hlen2 : (rem.erase m).length ≤ fuel := by
            rw [List.length_erase_of_mem hm]
            omega
          rw [ih (sel ++ [m]) (rem.erase m) hlen2, greedy_cons rel hpb]
          have hKs : K - sel.length = (K - (sel ++ [m]).length) + 1 := by
            simp
            omega
          rw [hKs, List.take_succ_cons]
          simp

theorem insertD_map {α β : Type} (key : β → ℝ) (f : α → β) (a : α) :
    ∀ l : List α, insertD key (f a) (l.map f) = (insertD (fun x => key (f x)) a l).map f := by
  intro l
  induction l with
  | nil => rfl
  | cons b bs ih =>
    rw [List.map_cons, insertD, insertD]
    by_cases h : key (f b) ≤ key (f a)
    · rw [if_pos h, if_pos h]
      rfl
    · rw [if_neg h, if_neg h, List.map_cons, ih]

theorem stableSortDesc_map {α β : Type} (key : β → ℝ) (f : α → β) :
    ∀ l : List α,
      stableSortDesc key (l.map f) = (stableSortDesc (fun x => key (f x)) l).map f := by
  intro l
  induction l with
  | nil => rfl
  | cons a t ih =>
    rw [List.map_cons, stableSortDesc, stableSortDesc, ih, insertD_map]

theorem takeOpt_map {α β : Type} (f : α → β) (tk : Option ℕ) (l : List α) :
    takeOpt tk (l.map f) = (takeOpt tk l).map f := by
  cases tk with
  | none => rfl
  | some k => simp [takeOpt, List.map_take]

/-- Reformulation: `rerank_by_relevance` is the stable descending sort of the
documents by relevance score, truncated to `top_k`. -/
theorem rerank_by_relevance_eq_sortKey (q : String) (docs : List Document) (tk : Option ℕ)
    (h : docs ≠ []) :
    rerank_by_relevance q docs tk
      = takeOpt tk (stableSortDesc (calculate_relevance_score q) docs) := by
  rw [rerank_by_relevance, if_neg h,
    stableSortDesc_map (fun p : Document × ℝ => p.2)
      (fun d => (d, calculate_relevance_score q d)) docs]
  have hkey : (fun x : Document =>
      (fun p : Document × ℝ => p.2) ((fun d => (d, calculate_relevance_score q d)) x))
      = calculate_relevance_score q := rfl
  rw [hkey, takeOpt_map]
  rw [List.map_map]
  have hcomp : (Prod.fst ∘ fun d : Document => (d, calculate_relevance_score q d))
      = fun d : Document => d := rfl
  rw [hcomp]
  exact List.map_id' _

/-- Sorting documents by score is sorting their indices by score and
reading the documents back off. -/
theorem sortKey_docs_eq_map_range (q : String) (docs : List Document) :
    stableSortDesc (calculate_relevance_score q) docs
      = (stableSortDesc (relKey q docs) (List.range docs.length)).map
          (fun i => docs.getD i default) := by
  conv_lhs => rw [← map_getD_range docs]
  rw [stableSortDesc_map (calculate_relevance_score q) (fun i => docs.getD i default)]
  have hkey : (fun x : ℕ =>
      calculate_relevance_score q ((fun i => docs.getD i default) x)) = relKey q docs := rfl
  rw [hkey]

theorem diversity_top1 (q : String) (docs : List Document) (lam : ℝ) (h : docs ≠ []) :
    ∃ d, rerank_by_diversity q docs (some 1) lam = [d] ∧ d ∈ docs
      ∧ ∀ d2 ∈ docs, calculate_relevance_score q d2 ≤ calculate_relevance_score q d := by
  rw [rerank_by_diversity, if_neg h]
  by_cases hn : docs.length ≤ 1
  · have hlen1 : docs.length = 1 := le_antisymm hn (List.length_pos.mpr h)
    obtain ⟨a, ha⟩ := List.length_eq_one.mp hlen1
    subst ha
    rw [diversityIdx, if_pos hn, map_getD_range]
    refine ⟨a, rfl, List.mem_singleton_self a, ?_⟩
    intro d2 hd2
    rw [List.mem_singleton.mp hd2]
  · cases hpb : pickBest (relKey q docs) (List.range docs.length) with
    | none =>
      exfalso
      have h0 := pickBest_eq_none _ hpb
      rw [List.range_eq_nil] at h0
      exact h (List.eq_nil_of_length_eq_zero h0)
    | some first =>
      have hidx : diversityIdx q docs (some 1) lam
          = mmrLoop (relKey q docs) (simKey docs) lam (some 1)
              ((List.range docs.length).erase first).length [first]
              ((List.range docs.length).erase first) := by
        rw [diversityIdx, if_neg hn, hpb]
      have hloop := mmrLoop_of_reached (relKey q docs) (simKey docs) lam (some 1)
        ((List.range docs.length).erase first).length [first]
        ((List.range docs.length).erase first) rfl
      have hfirst : first < docs.length := List.mem_range.mp (pickBest_mem _ hpb)
      refine ⟨docs.getD first default, ?_, ?_, ?_⟩
      · rw [hidx, hloop]
        rfl
      · rw [List.getD_eq_getElem docs default hfirst]
        exact List.getElem_mem _
      · intro d2 hd2
        obtain ⟨i, hi, rfl⟩ := List.mem_iff_getElem.mp hd2
        have hle := pickBest_le _ hpb i (List.mem_range.mpr hi)
        have h1 : relKey q docs i = calculate_relevance_score q docs[i] := by
          show calculate_relevance_score q (docs.getD i default) = _
          rw [List.getD_eq_getElem docs default hi]
        have h2 : relKey q docs first
            = calculate_relevance_score q (docs.getD first default) := rfl
        rw [h1, h2] at hle
        exact hle

theorem diversity_lam_one_eq_relevance (q : String) (docs : List Document) (tk : Option ℕ)
    (h : docs ≠ []) (htk : tk ≠ some 0) :
    rerank_by_diversity q docs tk 1 = rerank_by_relevance q docs tk := by
  rw [rerank_by_relevance_eq_sortKey q docs tk h, sortKey_docs_eq_map_range,
    rerank_by_diversity, if_neg h]
  by_cases hn : docs.length ≤ 1
  · have hlen1 : docs.length = 1 := le_antisymm hn (List.length_pos.mpr h)
    obtain ⟨a, ha⟩ := List.length_eq_one.mp hlen1
    subst ha
    rw [diversityIdx, if_pos hn, map_getD_range]
    have hsing : (stableSortDesc (relKey q [a]) (List.range ([a] : List Document).length)).map
        (fun i => ([a] : List Document).getD i default) = [a] := rfl
    rw [hsing]
    cases tk with
    | none => rfl
    | some K =>
      have hK : 1 ≤ K := Nat.one_le_iff_ne_zero.mpr (fun h0 => htk (by rw [h0]))
      show [a] = List.take K [a]
      rw [List.take_of_length_le (by simpa using hK)]
  · cases hpb : pickBest (relKey q docs) (List.range docs.length) with
    | none =>
      exfalso
      have h0 := pickBest_eq_none _ hpb
      rw [List.range_eq_nil] at h0
      exact h (List.eq_nil_of_length_eq_zero h0)
    | some first =>
      have hidx : diversityIdx q docs tk 1
          = mmrLoop (relKey q docs) (simKey docs) 1 tk
              ((List.range docs.length).erase first).length [first]
              ((List.range docs.length).erase first) := by
        rw [diversityIdx, if_neg hn, hpb]
      have hsort : stableSortDesc (relKey q docs) (List.range docs.length)
          = first :: greedyAll (relKey q docs)
              ((List.range docs.length).erase first).length
              ((List.range docs.length).erase first) := by
        rw [← greedyAll_eq_stableSortDesc (relKey q docs) (List.range docs.length).length
          (List.range docs.length) rfl]
        exact greedy_cons (relKey q docs) hpb
      rw [hidx, hsort]
      cases tk with
      | none =>
        rw [mmrLoop_lam_one_none (relKey q docs) (simKey docs)
          ((List.range docs.length).erase first).length [first]
          ((List.range docs.length).erase first) (le_refl _)]
        rfl
      | some K =>
        obtain ⟨K', rfl⟩ : ∃ K', K = K' + 1 := by
          have hK : K ≠ 0 := fun h0 => htk (by rw [h0])
          exact ⟨K - 1, by omega⟩
        rw [mmrLoop_lam_one_some (relKey q docs) (simKey docs) (K' + 1)
          ((List.range docs.length).erase first).length [first]
          ((List.range docs.length).erase first) (le_refl _)]
        simp [takeOpt, List.take_succ_cons, List.map_take]

/-- C8 counterexample — the λ = 1 half of the claim fails as stated at
`top_k = 0` (a nonempty candidate list): `rerank_by_diversity`
unconditionally selects a first candidate before checking `top_k`
(and returns short lists unchanged), while `rerank_by_relevance`
truncates to zero, so the two orders differ. -/
theorem diversity_lam_one_top0_counterexample :
    rerank_by_diversity "x" [⟨"y", 0⟩] (some 0) 1
      ≠ rerank_by_relevance "x" [⟨"y", 0⟩] (some 0)
    ∧ rerank_by_diversity "x" [⟨"y", 0⟩] (some 0) 1 = [⟨"y", 0⟩]
    ∧ rerank_by_relevance "x" [⟨"y", 0⟩] (some 0) = [] := by
  have h1 : rerank_by_diversity "x" [⟨"y", 0⟩] (some 0) 1 = [⟨"y", 0⟩] := rfl
  have h2 : rerank_by_relevance "x" [⟨"y", 0⟩] (some 0) = [] := rfl
  refine ⟨?_, h1, h2⟩
  rw [h1, h2]
  simp

/-- C8 (amended) — for every query and nonempty candidate list:
with `top_k = 1` diversity (MMR) reranking returns exactly one
candidate, an element of the input attaining the maximal relevance
score (the first such, per Python's `max`); and with `λ = 1` the
diversity order equals the pure relevance order for every `top_k`
other than `some 0` (at `top_k = 0` the two sides differ, see the
counterexample). -/
theorem diversity_top1_and_lam_one_order (q : String) (docs : List Document)
    (h : docs ≠ []) :
    (∀ lam : ℝ, ∃ d, rerank_by_diversity q docs (some 1) lam = [d] ∧ d ∈ docs
        ∧ ∀ d2 ∈ docs, calculate_relevance_score q d2 ≤ calculate_relevance_score q d)
    ∧ (∀ tk : Option ℕ, tk ≠ some 0 →
        rerank_by_diversity q docs tk 1 = rerank_by_relevance q docs tk) :=
  ⟨fun lam => diversity_top1 q docs lam h,
   fun tk htk => diversity_lam_one_eq_relevance q docs tk h htk⟩

theorem diversity_top1_and_lam_one_witness :
    ([⟨"a", 0⟩] : List Document) ≠ []
    ∧ ((∀ lam : ℝ, ∃ d, rerank_by_diversity "a" [⟨"a", 0⟩] (some 1) lam = [d]
          ∧ d ∈ ([⟨"a", 0⟩] : List Document)
          ∧ ∀ d2 ∈ ([⟨"a", 0⟩] : List Document),
              calculate_relevance_score "a" d2 ≤ calculate_relevance_score "a" d)
      ∧ (∀ tk : Option ℕ, tk ≠ some 0 →
          rerank_by_diversity "a" [⟨"a", 0⟩] tk 1 = rerank_by_relevance "a" [⟨"a", 0⟩] tk)) :=
  ⟨by simp, diversity_top1_and_lam_one_order "a" [⟨"a", 0⟩] (by simp)⟩
